import Mathlib

/-!
# Verification of the pysled binding and its underlying store model

The repository `pysled` is a Python binding (src/lib.rs) over the sled
embedded key-value store.  The binding file defines two wrapper classes,
`SledDb` and `SledTree`, whose methods forward to the engine and translate
engine errors into Python `ValueError`s via `convert_to_pyresult`.

The engine itself (ordered index, compare-and-swap, checksum, tree
registry, durability) is not part of the repository source; following the
specification we model it as a canonical sorted association list from byte
keys to byte values, with operations faithful to the spec's descriptions.
The binding-layer functions are embedded directly from src/lib.rs.
-/

/-- A byte sequence (key, value or tree name): a list of bytes, each a `Nat`. -/
abbrev ByteSeq := List Nat

/-- Strict lexicographic order on raw byte sequences, the key order of a tree. -/
def lexLt : ByteSeq → ByteSeq → Bool
  | [], [] => false
  | [], _ :: _ => true
  | _ :: _, [] => false
  | a :: as, b :: bs =>
    if a < b then true
    else if b < a then false
    else lexLt as bs

theorem lexLt_irrefl (a : ByteSeq) : lexLt a a = false := by
  induction a with
  | nil => rfl
  | cons x xs ih => simp [lexLt, ih]

theorem lexLt_trans {a b c : ByteSeq} (hab : lexLt a b = true)
    (hbc : lexLt b c = true) : lexLt a c = true := by
  induction a generalizing b c with
  | nil =>
    cases b with
    | nil => simp [lexLt] at hab
    | cons y ys =>
      cases c with
      | nil => simp [lexLt] at hbc
      | cons z zs => rfl
  | cons x xs ih =>
    cases b with
    | nil => simp [lexLt] at hab
    | cons y ys =>
      cases c with
      | nil => simp [lexLt] at hbc
      | cons z zs =>
        simp only [lexLt] at hab hbc ⊢
        by_cases hxy : x < y
        · simp [hxy] at hab
          by_cases hyz : y < z
          · have hxz : x < z := Nat.lt_trans hxy hyz
            simp [hxz]
          · by_cases hzy : z < y
            · simp [hyz, hzy] at hbc
            · have : y = z := Nat.le_antisymm (Nat.le_of_not_lt hzy) (Nat.le_of_not_lt hyz)
              subst this
              simp [hxy]
        · by_cases hyx : y < x
          · simp [hxy, hyx] at hab
          · have hxy' : x = y := Nat.le_antisymm (Nat.le_of_not_lt hyx) (Nat.le_of_not_lt hxy)
            subst hxy'
            simp only [lt_irrefl, if_false, if_neg (lt_irrefl x)] at hab
            by_cases hyz : x < z
            · simp [hyz]
            · by_cases hzy : z < x
              · simp [hyz, hzy] at hbc
              · have : x = z := Nat.le_antisymm (Nat.le_of_not_lt hzy) (Nat.le_of_not_lt hyz)
                subst this
                simp only [lt_irrefl, if_false, if_neg (lt_irrefl x)] at hbc ⊢
                exact ih hab hbc

theorem lexLt_asymm {a b : ByteSeq} (h : lexLt a b = true) : lexLt b a = false := by
  by_contra hc
  have hba : lexLt b a = true := by
    cases hh : lexLt b a
    · exact absurd hh hc
    · rfl
  have : lexLt a a = true := lexLt_trans h hba
  rw [lexLt_irrefl] at this
  exact Bool.false_ne_true this

theorem lexLt_total {a b : ByteSeq} (hab : lexLt a b = false)
    (hba : lexLt b a = false) : a = b := by
  induction a generalizing b with
  | nil =>
    cases b with
    | nil => rfl
    | cons y ys => simp [lexLt] at hab
  | cons x xs ih =>
    cases b with
    | nil => simp [lexLt] at hba
    | cons y ys =>
      simp only [lexLt] at hab hba
      by_cases hxy : x < y
      · simp [hxy] at hab
      · by_cases hyx : y < x
        · simp [hyx, hxy] at hba
        · have hxy' : x = y := Nat.le_antisymm (Nat.le_of_not_lt hyx) (Nat.le_of_not_lt hxy)
          subst hxy'
          simp only [lt_irrefl, if_false, if_neg (lt_irrefl x)] at hab hba
          rw [ih hab hba]

theorem lexLt_ne {a b : ByteSeq} (h : lexLt a b = true) : a ≠ b := by
  intro he
  subst he
  rw [lexLt_irrefl] at h
  exact Bool.false_ne_true h

/-- The state of one tree: its entries as an association list from key to
value.  The engine keeps it in strictly ascending key order (`validTree`). -/
abbrev TreeState := List (ByteSeq × ByteSeq)

/-- Order on entries: strictly ascending key order. -/
def entryLt (p q : ByteSeq × ByteSeq) : Prop := lexLt p.1 q.1 = true

instance : DecidablePred fun pq : (ByteSeq × ByteSeq) × (ByteSeq × ByteSeq) =>
    entryLt pq.1 pq.2 := fun _ => by unfold entryLt; infer_instance

instance (p q : ByteSeq × ByteSeq) : Decidable (entryLt p q) := by
  unfold entryLt; infer_instance

/-- Invariant of a tree state: entries are strictly sorted by key, which also
forces key uniqueness. -/
def validTree (s : TreeState) : Prop := List.Pairwise entryLt s

instance (s : TreeState) : Decidable (validTree s) := by
  unfold validTree; infer_instance

/-- Modelled from the spec: `get(key)` of the ordered index — "current value
or absent".  (The index implementation lives in the sled engine, outside the
repository's source.) -/
def treeGet (k : ByteSeq) : TreeState → Option ByteSeq
  | [] => none
  | (k', v) :: rest => if k' = k then some v else treeGet k rest

/-- Modelled from the spec: the state change of `insert(key, value)` of the
ordered index — atomically overwrites the binding of `key`, keeping entries
in ascending key order. -/
def treeInsert (k v : ByteSeq) : TreeState → TreeState
  | [] => [(k, v)]
  | (k', v') :: rest =>
    if lexLt k k' then (k, v) :: (k', v') :: rest
    else if k = k' then (k, v) :: rest
    else (k', v') :: treeInsert k v rest

/-- Modelled from the spec: the state change of `remove(key)` of the ordered
index — removes the binding of `key` if present, a no-op otherwise. -/
def treeRemove (k : ByteSeq) : TreeState → TreeState
  | [] => []
  | (k', v') :: rest =>
    if k' = k then rest else (k', v') :: treeRemove k rest

theorem treeGet_insert_self (k v : ByteSeq) (s : TreeState) :
    treeGet k (treeInsert k v s) = some v := by
  induction s with
  | nil => simp [treeInsert, treeGet]
  | cons p rest ih =>
    obtain ⟨k', v'⟩ := p
    simp only [treeInsert]
    by_cases h1 : lexLt k k' = true
    · simp [h1, treeGet]
    · by_cases h2 : k = k'
      · subst h2
        simp [lexLt_irrefl, treeGet]
      · have h2' : ¬ (k' = k) := fun he => h2 he.symm
        simp [h1, h2, treeGet, h2', ih]

theorem treeGet_insert_other (k v k' : ByteSeq) (s : TreeState) (hne : k' ≠ k) :
    treeGet k' (treeInsert k v s) = treeGet k' s := by
  have hkk : ¬ (k = k') := fun he => hne he.symm
  induction s with
  | nil => simp [treeInsert, treeGet, hkk]
  | cons p rest ih =>
    obtain ⟨k0, v0⟩ := p
    simp only [treeInsert]
    by_cases h1 : lexLt k k0 = true
    · simp [h1, treeGet, hkk]
    · by_cases h2 : k = k0
      · subst h2
        simp [lexLt_irrefl, treeGet, hkk]
      · simp only [h1, if_false, if_neg h2]
        simp only [treeGet]
        by_cases h3 : k0 = k'
        · simp [h3]
        · simp [h3, ih]

theorem treeGet_eq_none_of_lt_all (x : ByteSeq) (s : TreeState)
    (h : ∀ p ∈ s, lexLt x p.1 = true) : treeGet x s = none := by
  induction s with
  | nil => rfl
  | cons q t iht =>
    obtain ⟨kq, vq⟩ := q
    have hlt : lexLt x kq = true := h (kq, vq) (List.mem_cons_self _ _)
    have hne : ¬ (kq = x) := fun he => lexLt_ne hlt he.symm
    simp only [treeGet, if_neg hne]
    exact iht (fun r hr => h r (List.mem_cons_of_mem _ hr))

theorem treeGet_remove_self (k : ByteSeq) (s : TreeState) (hs : validTree s) :
    treeGet k (treeRemove k s) = none := by
  induction s with
  | nil => simp [treeRemove, treeGet]
  | cons p rest ih =>
    obtain ⟨k0, v0⟩ := p
    have hrest : validTree rest := (List.pairwise_cons.mp hs).2
    have hall := (List.pairwise_cons.mp hs).1
    simp only [treeRemove]
    by_cases h1 : k0 = k
    · subst h1
      simp only [if_pos rfl]
      exact treeGet_eq_none_of_lt_all _ _ (fun p hp => hall p hp)
    · simp [h1, treeGet, ih hrest]

theorem treeGet_remove_other (k k' : ByteSeq) (s : TreeState) (hne : k' ≠ k) :
    treeGet k' (treeRemove k s) = treeGet k' s := by
  induction s with
  | nil => rfl
  | cons p rest ih =>
    obtain ⟨k0, v0⟩ := p
    simp only [treeRemove, treeGet]
    by_cases h1 : k0 = k
    · subst h1
      simp only [if_pos rfl]
      have : k0 ≠ k' := fun he => hne he.symm
      simp [treeGet, this]
    · simp only [if_neg h1, treeGet]
      by_cases h2 : k0 = k'
      · simp [h2]
      · simp [h2, ih]

theorem mem_treeInsert {k v : ByteSeq} {s : TreeState} {p : ByteSeq × ByteSeq}
    (h : p ∈ treeInsert k v s) : p = (k, v) ∨ p ∈ s := by
  induction s with
  | nil => simpa [treeInsert] using h
  | cons q rest ih =>
    obtain ⟨k0, v0⟩ := q
    simp only [treeInsert] at h
    by_cases h1 : lexLt k k0 = true
    · simp only [h1, if_true] at h
      rcases List.mem_cons.mp h with h' | h'
      · exact Or.inl h'
      · exact Or.inr h'
    · by_cases h2 : k = k0
      · subst h2
        simp only [lexLt_irrefl, if_false, if_pos rfl] at h
        rcases List.mem_cons.mp h with h' | h'
        · exact Or.inl h'
        · exact Or.inr (List.mem_cons_of_mem _ h')
      · simp only [h1, if_false, if_neg h2] at h
        rcases List.mem_cons.mp h with h' | h'
        · exact Or.inr (h' ▸ List.mem_cons_self _ _)
        · rcases ih h' with h'' | h''
          · exact Or.inl h''
          · exact Or.inr (List.mem_cons_of_mem _ h'')

theorem treeInsert_valid (k v : ByteSeq) (s : TreeState) (hs : validTree s) :
    validTree (treeInsert k v s) := by
  induction s with
  | nil => simp [treeInsert, validTree]
  | cons p rest ih =>
    obtain ⟨k0, v0⟩ := p
    have hrest : validTree rest := (List.pairwise_cons.mp hs).2
    have hall := (List.pairwise_cons.mp hs).1
    simp only [treeInsert]
    by_cases h1 : lexLt k k0 = true
    · simp only [h1, if_true]
      refine List.pairwise_cons.mpr ⟨?_, hs⟩
      intro q hq
      rcases List.mem_cons.mp hq with h' | h'
      · subst h'
        exact h1
      · exact lexLt_trans h1 (hall q h')
    · by_cases h2 : k = k0
      · subst h2
        simp only [lexLt_irrefl, Bool.false_eq_true, if_false, if_pos rfl]
        exact List.pairwise_cons.mpr ⟨hall, hrest⟩
      · simp only [h1, if_false, if_neg h2]
        refine List.pairwise_cons.mpr ⟨?_, ih hrest⟩
        intro q hq
        rcases mem_treeInsert hq with h' | h'
        · subst h'
          show lexLt k0 k = true
          cases hh : lexLt k0 k
          · exact absurd (lexLt_total (by simpa using h1) hh) h2
          · rfl
        · exact hall q h'

theorem treeRemove_sublist (k : ByteSeq) (s : TreeState) :
    (treeRemove k s).Sublist s := by
  induction s with
  | nil => simp [treeRemove]
  | cons p rest ih =>
    obtain ⟨k0, v0⟩ := p
    simp only [treeRemove]
    by_cases h1 : k0 = k
    · simp only [if_pos h1]
      exact List.sublist_cons_of_sublist _ (List.Sublist.refl rest)
    · simp only [if_neg h1]
      exact List.Sublist.cons₂ _ ih

theorem treeRemove_valid (k : ByteSeq) (s : TreeState) (hs : validTree s) :
    validTree (treeRemove k s) :=
  List.Pairwise.sublist (treeRemove_sublist k s) hs

theorem treeGet_mem {k v : ByteSeq} {s : TreeState} (hs : validTree s)
    (h : (k, v) ∈ s) : treeGet k s = some v := by
  induction s with
  | nil => simp at h
  | cons p rest ih =>
    obtain ⟨k0, v0⟩ := p
    have hrest : validTree rest := (List.pairwise_cons.mp hs).2
    have hall := (List.pairwise_cons.mp hs).1
    rcases List.mem_cons.mp h with h' | h'
    · obtain ⟨hk, hv⟩ := Prod.mk.injEq .. ▸ h'
      simp [treeGet, hk.symm, hv]
    · have hlt : lexLt k0 k = true := hall (k, v) h'
      have hne : ¬ (k0 = k) := lexLt_ne hlt
      simp [treeGet, hne, ih hrest h']

theorem mem_of_treeGet {k v : ByteSeq} {s : TreeState}
    (h : treeGet k s = some v) : (k, v) ∈ s := by
  induction s with
  | nil => simp [treeGet] at h
  | cons p rest ih =>
    obtain ⟨k0, v0⟩ := p
    by_cases h0 : k0 = k
    · subst h0
      simp only [treeGet, eq_self_iff_true, if_true, Option.some.injEq] at h
      subst h
      exact List.mem_cons_self _ _
    · simp only [treeGet, if_neg h0] at h
      exact List.mem_cons_of_mem _ (ih h)

/-- Two strictly sorted tree states that bind every key identically are the
same list: the sorted association list is a canonical representation. -/
theorem sorted_ext (s1 s2 : TreeState) (h1 : validTree s1) (h2 : validTree s2)
    (h : ∀ k, treeGet k s1 = treeGet k s2) : s1 = s2 := by
  induction s1 generalizing s2 with
  | nil =>
    cases s2 with
    | nil => rfl
    | cons q t =>
      obtain ⟨kq, vq⟩ := q
      have := h kq
      simp [treeGet] at this
  | cons p t1 ih =>
    obtain ⟨k1, v1⟩ := p
    cases s2 with
    | nil =>
      have := h k1
      simp [treeGet] at this
    | cons q t2 =>
      obtain ⟨k2, v2⟩ := q
      have hall1 := (List.pairwise_cons.mp h1).1
      have ht1 : validTree t1 := (List.pairwise_cons.mp h1).2
      have hall2 := (List.pairwise_cons.mp h2).1
      have ht2 : validTree t2 := (List.pairwise_cons.mp h2).2
      have hk : k1 = k2 := by
        by_contra hne
        cases hlt : lexLt k1 k2 with
        | true =>
          have hg1 : treeGet k1 ((k1, v1) :: t1) = some v1 := by simp [treeGet]
          have hg2 : treeGet k1 ((k2, v2) :: t2) = none := by
            refine treeGet_eq_none_of_lt_all _ _ ?_
            intro r hr
            rcases List.mem_cons.mp hr with h' | h'
            · rw [h']
              exact hlt
            · exact lexLt_trans hlt (hall2 r h')
          rw [h k1, hg2] at hg1
          exact Option.noConfusion hg1
        | false =>
          cases hlt' : lexLt k2 k1 with
          | true =>
            have hg2 : treeGet k2 ((k2, v2) :: t2) = some v2 := by simp [treeGet]
            have hg1 : treeGet k2 ((k1, v1) :: t1) = none := by
              refine treeGet_eq_none_of_lt_all _ _ ?_
              intro r hr
              rcases List.mem_cons.mp hr with h' | h'
              · rw [h']
                exact hlt'
              · exact lexLt_trans hlt' (hall1 r h')
            rw [← h k2, hg1] at hg2
            exact Option.noConfusion hg2
          | false => exact hne (lexLt_total hlt hlt')
      subst hk
      have hv : v1 = v2 := by
        have := h k1
        simpa [treeGet] using this
      subst hv
      have htail : ∀ k, treeGet k t1 = treeGet k t2 := by
        intro k
        by_cases hk1 : k1 = k
        · subst hk1
          have e1 : treeGet k1 t1 = none :=
            treeGet_eq_none_of_lt_all _ _ (fun r hr => hall1 r hr)
          have e2 : treeGet k1 t2 = none :=
            treeGet_eq_none_of_lt_all _ _ (fun r hr => hall2 r hr)
          rw [e1, e2]
        · have := h k
          simpa [treeGet, hk1] using this
      rw [ih t2 ht1 ht2 htail]

/-- Modelled from the spec: `scan_all()` of the ordered index — the finite
sequence of (key, value) pairs of the tree in ascending key order. -/
def scanAll (s : TreeState) : List (ByteSeq × ByteSeq) := s

/-- Modelled from the spec: `len()` of the ordered index — the number of
entries of the tree. -/
def treeLen (s : TreeState) : Nat := s.length

/-- Modelled from the spec: `is_empty()` of the ordered index. -/
def treeIsEmpty (s : TreeState) : Bool := s.isEmpty

/-- Modelled from the spec: `contains(key)` of the ordered index — whether
the key is currently bound, without copying the value. -/
def treeContainsKey (k : ByteSeq) : TreeState → Bool
  | [] => false
  | (k', _) :: rest => if k' = k then true else treeContainsKey k rest

/-- Modelled from the spec: `clear()` of the ordered index — removes all
entries of the tree. -/
def treeClear (_ : TreeState) : TreeState := []

/-- A 32-bit rolling digest of one byte sequence. -/
def bytesDigest (b : ByteSeq) : Nat :=
  b.foldl (fun h x => (h * 257 + x % 256 + 1) % 2 ^ 32) 5381

/-- Modelled from the spec: `checksum()` — a 32-bit integrity value computed
deterministically over the tree's current content (the sled hashing
internals are outside the repository's source; any deterministic digest of
the canonical content satisfies the spec's contract). -/
def checksum (s : TreeState) : Nat :=
  s.foldl (fun h p => (h * 1000003 + bytesDigest p.1 * 31 + bytesDigest p.2) % 2 ^ 32) 0

/-- The conflict descriptor of a failed compare-and-swap, as exposed by the
binding (src/lib.rs `CompareAndSwapError`): the actual current value (or
absence) and the proposed value (or absence). -/
structure CompareAndSwapError where
  current : Option ByteSeq
  proposed : Option ByteSeq
  deriving Repr, DecidableEq

/-- Modelled from the spec: `compare_and_swap(key, expected_old,
proposed_new)` of the ordered index — if and only if the key's current value
equals `expected_old` (absence being a valid expected state), replace it
with `proposed_new` (absent `proposed_new` meaning delete); on mismatch
return the conflict descriptor and leave the tree unchanged. -/
def treeCas (k : ByteSeq) (old new : Option ByteSeq) (s : TreeState) :
    Option CompareAndSwapError × TreeState :=
  if treeGet k s = old then
    (none,
      match new with
      | some v => treeInsert k v s
      | none => treeRemove k s)
  else
    (some ⟨treeGet k s, new⟩, s)

/-- One engine-level mutation of a single tree. -/
inductive TreeOp where
  | ins (k v : ByteSeq)
  | del (k : ByteSeq)
  | cas (k : ByteSeq) (old new : Option ByteSeq)
  | clr
  deriving Repr

/-- Apply one mutation to a tree state. -/
def applyOp (s : TreeState) : TreeOp → TreeState
  | .ins k v => treeInsert k v s
  | .del k => treeRemove k s
  | .cas k old new => (treeCas k old new s).2
  | .clr => treeClear s

/-- Run a sequence of mutations from the empty tree. -/
def runOps (ops : List TreeOp) : TreeState := ops.foldl applyOp []

theorem applyOp_valid (s : TreeState) (op : TreeOp) (hs : validTree s) :
    validTree (applyOp s op) := by
  cases op with
  | ins k v => exact treeInsert_valid k v s hs
  | del k => exact treeRemove_valid k s hs
  | cas k old new =>
    simp only [applyOp, treeCas]
    by_cases h : treeGet k s = old
    · simp only [if_pos h]
      cases new with
      | some v => exact treeInsert_valid k v s hs
      | none => exact treeRemove_valid k s hs
    · simp only [if_neg h]
      exact hs
  | clr => exact List.Pairwise.nil

theorem runOps_valid (ops : List TreeOp) : validTree (runOps ops) := by
  suffices h : ∀ s, validTree s → validTree (ops.foldl applyOp s) by
    exact h [] List.Pairwise.nil
  induction ops with
  | nil => intro s hs; exact hs
  | cons op rest ih =>
    intro s hs
    exact ih (applyOp s op) (applyOp_valid s op hs)

/-- The state of a whole database: its implicit default tree plus the
registry of named trees. -/
structure DbState where
  defaultTree : TreeState
  trees : List (ByteSeq × TreeState)
  deriving Repr

/-- Modelled from the spec: the reserved empty/default name that denotes the
database's implicit primary tree, which cannot be dropped. -/
def defaultTreeName : ByteSeq := []

/-- Modelled from the spec: the engine's error kinds (§7 of the spec's error
taxonomy), each carrying a message used for display. -/
inductive SledError where
  | storageOpenError (msg : String)
  | ioError (msg : String)
  | flushError (msg : String)
  | treeDroppedError (msg : String)
  | invalidOperationError (msg : String)
  deriving Repr, DecidableEq

/-- The display string of an engine error (`e.to_string()` in src/lib.rs). -/
def displayErr : SledError → String
  | .storageOpenError m => m
  | .ioError m => m
  | .flushError m => m
  | .treeDroppedError m => m
  | .invalidOperationError m => m

/-- Look up a named tree in the registry. -/
def lookupTree (name : ByteSeq) : List (ByteSeq × TreeState) → Option TreeState
  | [] => none
  | (n, t) :: rest => if n = name then some t else lookupTree name rest

/-- Remove a named tree from the registry. -/
def removeTreeEntry (name : ByteSeq) : List (ByteSeq × TreeState) → List (ByteSeq × TreeState)
  | [] => []
  | (n, t) :: rest => if n = name then rest else (n, t) :: removeTreeEntry name rest

/-- Modelled from the spec: `drop_tree(name)` — returns whether a tree of
that name existed and was removed; dropping the reserved default tree is
rejected with an `InvalidOperationError` and removes nothing. -/
def dropTree (name : ByteSeq) (db : DbState) : Except SledError (Bool × DbState) :=
  if name = defaultTreeName then
    .error (.invalidOperationError "cannot remove the core structures")
  else
    match lookupTree name db.trees with
    | some _ => .ok (true, { db with trees := removeTreeEntry name db.trees })
    | none => .ok (false, db)

/-- Modelled from the spec: `open_tree(name)` — creates the tree if absent,
otherwise returns the existing one. -/
def openTree (name : ByteSeq) (db : DbState) : TreeState × DbState :=
  match lookupTree name db.trees with
  | some t => (t, db)
  | none => ([], { db with trees := (name, []) :: db.trees })

/-- A database opened in a process: its current in-memory state and the
durable state persisted at the storage location. -/
structure OpenDb where
  mem : DbState
  disk : DbState
  deriving Repr

/-- Modelled from the spec: opening a storage location — recovery
reconstructs the registry and all trees from the persisted (durable)
state. -/
def openDb (durable : DbState) : OpenDb := ⟨durable, durable⟩

/-- Modelled from the spec: `flush()` — forces all applied-but-not-yet-
durable mutations to stable storage. -/
def flushDb (d : OpenDb) : OpenDb := ⟨d.mem, d.mem⟩

/-- Modelled from the spec: closing the database — only mutations made
durable by the flush contract survive to the storage location. -/
def closeDb (d : OpenDb) : DbState := d.disk

/-- Apply one mutation to the default tree of an opened database (an
applied-but-not-yet-durable write: it changes only the in-memory state). -/
def dbApplyOp (d : OpenDb) (op : TreeOp) : OpenDb :=
  ⟨{ d.mem with defaultTree := applyOp d.mem.defaultTree op }, d.disk⟩

/-- Insert a list of key/value pairs into the default tree of an opened
database, in order. -/
def dbInsertAll (pairs : List (ByteSeq × ByteSeq)) (d : OpenDb) : OpenDb :=
  pairs.foldl (fun acc p => dbApplyOp acc (.ins p.1 p.2)) d

/-- The kind of a Python exception raised by the binding.  PyO3 offers many
kinds; the binding is free to pick any of them per failure. -/
inductive PyErrKind where
  | valueError
  | keyError
  | typeError
  | runtimeError
  deriving Repr, DecidableEq

/-- A raised Python exception: its kind and its message. -/
structure PyErr where
  kind : PyErrKind
  msg : String
  deriving Repr, DecidableEq

/-- src/lib.rs `convert_to_pyresult`: maps any engine error to a
`PyValueError` whose message is the error's display string. -/
def convert_to_pyresult {α : Type} (inp : Except SledError α) : Except PyErr α :=
  inp.mapError (fun e => PyErr.mk PyErrKind.valueError (displayErr e))

namespace SledDb

/-- src/lib.rs `SledDb::new`: opens the storage location; an engine failure
becomes a `PyValueError` whose message is prefixed with
"Failed to open db: ". -/
def new (openResult : Except SledError DbState) : Except PyErr OpenDb :=
  match openResult with
  | .ok durable => .ok (openDb durable)
  | .error e => .error (PyErr.mk PyErrKind.valueError ("Failed to open db: " ++ displayErr e))

/-- src/lib.rs `SledDb::get` (success path): the engine `get` on the
database's default tree. -/
def get (d : DbState) (k : ByteSeq) : Option ByteSeq := treeGet k d.defaultTree

/-- src/lib.rs `SledDb::insert` (success path): returns the previous value
and the updated state. -/
def insert (d : DbState) (k v : ByteSeq) : Option ByteSeq × DbState :=
  (treeGet k d.defaultTree, { d with defaultTree := treeInsert k v d.defaultTree })

/-- src/lib.rs `SledDb::remove` (success path): returns the previous value
and the updated state. -/
def remove (d : DbState) (k : ByteSeq) : Option ByteSeq × DbState :=
  (treeGet k d.defaultTree, { d with defaultTree := treeRemove k d.defaultTree })

/-- src/lib.rs `SledDb::all` (success path): the ordered full scan. -/
def all (d : DbState) : List (ByteSeq × ByteSeq) := scanAll d.defaultTree

/-- src/lib.rs `SledDb::compare_and_swamp` (success path): the engine
compare-and-swap, surfacing a conflict as an optional descriptor. -/
def compare_and_swamp (d : DbState) (k : ByteSeq) (old new : Option ByteSeq) :
    Option CompareAndSwapError × DbState :=
  let r := treeCas k old new d.defaultTree
  (r.1, { d with defaultTree := r.2 })

/-- src/lib.rs `SledDb::contains_key` (success path). -/
def contains_key (d : DbState) (k : ByteSeq) : Bool := treeContainsKey k d.defaultTree

/-- src/lib.rs `SledDb::len`. -/
def len (d : DbState) : Nat := treeLen d.defaultTree

/-- src/lib.rs `SledDb::is_empty`. -/
def is_empty (d : DbState) : Bool := treeIsEmpty d.defaultTree

/-- src/lib.rs `SledDb::checksum` (success path). -/
def checksumDb (d : DbState) : Nat := checksum d.defaultTree

/-- src/lib.rs `SledDb::drop_tree` (success path before error conversion). -/
def drop_tree (d : DbState) (name : ByteSeq) : Except SledError (Bool × DbState) :=
  dropTree name d

/-- src/lib.rs `SledDb::__getitem__`: forwards to `self.get(key)`. -/
def getitem (d : DbState) (k : ByteSeq) : Option ByteSeq := get d k

/-- src/lib.rs `SledDb::__setitem__`: `self.insert(key, value).map(|_| ())` —
inserts and discards the returned previous value. -/
def setitem (d : DbState) (k v : ByteSeq) : DbState := (insert d k v).2

/-- src/lib.rs `SledDb::__delitem__`: `self.remove(key).map(|_| ())` —
removes and discards the returned previous value. -/
def delitem (d : DbState) (k : ByteSeq) : DbState := (remove d k).2

/-- src/lib.rs `SledDb::__len__`: the engine `len` of the default tree. -/
def lenDunder (d : DbState) : Nat := treeLen d.defaultTree

/-- src/lib.rs `SledDb::__contains__`: the engine `contains_key` of the
default tree. -/
def containsDunder (d : DbState) (k : ByteSeq) : Bool := treeContainsKey k d.defaultTree

end SledDb

namespace SledTree

/-- src/lib.rs `SledTree::get` (success path). -/
def get (s : TreeState) (k : ByteSeq) : Option ByteSeq := treeGet k s

/-- src/lib.rs `SledTree::insert` (success path): previous value and updated
state. -/
def insert (s : TreeState) (k v : ByteSeq) : Option ByteSeq × TreeState :=
  (treeGet k s, treeInsert k v s)

/-- src/lib.rs `SledTree::remove` (success path): previous value and updated
state. -/
def remove (s : TreeState) (k : ByteSeq) : Option ByteSeq × TreeState :=
  (treeGet k s, treeRemove k s)

/-- src/lib.rs `SledTree::all` (success path): the ordered full scan. -/
def all (s : TreeState) : List (ByteSeq × ByteSeq) := scanAll s

/-- src/lib.rs `SledTree::compare_and_swamp` (success path). -/
def compare_and_swamp (s : TreeState) (k : ByteSeq) (old new : Option ByteSeq) :
    Option CompareAndSwapError × TreeState :=
  treeCas k old new s

/-- src/lib.rs `SledTree::is_empty`. -/
def is_empty (s : TreeState) : Bool := treeIsEmpty s

/-- src/lib.rs `SledTree::__getitem__`: forwards to `self.get(key)`. -/
def getitem (s : TreeState) (k : ByteSeq) : Option ByteSeq := get s k

/-- src/lib.rs `SledTree::__setitem__`: inserts and discards the returned
previous value. -/
def setitem (s : TreeState) (k v : ByteSeq) : TreeState := (insert s k v).2

/-- src/lib.rs `SledTree::__delitem__`: removes and discards the returned
previous value. -/
def delitem (s : TreeState) (k : ByteSeq) : TreeState := (remove s k).2

/-- src/lib.rs `SledTree::__len__`: the engine `len` of the tree. -/
def lenDunder (s : TreeState) : Nat := treeLen s

/-- src/lib.rs `SledTree::__contains__`: the engine `contains_key` of the
tree. -/
def containsDunder (s : TreeState) (k : ByteSeq) : Bool := treeContainsKey k s

end SledTree

theorem treeRemove_noop (k : ByteSeq) (s : TreeState) (h : treeGet k s = none) :
    treeRemove k s = s := by
  induction s with
  | nil => rfl
  | cons p rest ih =>
    obtain ⟨k0, v0⟩ := p
    simp only [treeGet] at h
    by_cases h0 : k0 = k
    · simp [h0] at h
    · simp only [if_neg h0] at h
      simp [treeRemove, h0, ih h]

theorem treeContainsKey_eq_isSome (k : ByteSeq) (s : TreeState) :
    treeContainsKey k s = (treeGet k s).isSome := by
  induction s with
  | nil => rfl
  | cons p rest ih =>
    obtain ⟨k0, v0⟩ := p
    simp only [treeContainsKey, treeGet]
    by_cases h0 : k0 = k
    · simp [h0]
    · simp [h0, ih]

theorem treeInsert_perm (k v : ByteSeq) (s : TreeState)
    (h : ∀ q ∈ s, q.1 ≠ k) : List.Perm (treeInsert k v s) ((k, v) :: s) := by
  induction s with
  | nil => simp [treeInsert]
  | cons p rest ih =>
    obtain ⟨k0, v0⟩ := p
    simp only [treeInsert]
    by_cases h1 : lexLt k k0 = true
    · simp [h1]
    · by_cases h2 : k = k0
      · exact absurd rfl (h2 ▸ h (k0, v0) (List.mem_cons_self _ _))
      · simp only [h1, if_false, if_neg h2]
        have ihp : List.Perm (treeInsert k v rest) ((k, v) :: rest) :=
          ih (fun q hq => h q (List.mem_cons_of_mem _ hq))
        exact (List.Perm.cons (k0, v0) ihp).trans (List.Perm.swap (k, v) (k0, v0) rest)

theorem foldl_insert_perm (pairs : List (ByteSeq × ByteSeq)) (s : TreeState)
    (hnd : (pairs.map Prod.fst).Nodup)
    (hdisj : ∀ p ∈ pairs, ∀ q ∈ s, q.1 ≠ p.1) :
    List.Perm (pairs.foldl (fun acc p => treeInsert p.1 p.2 acc) s) (pairs ++ s) := by
  induction pairs generalizing s with
  | nil => simp
  | cons p ps ih =>
    obtain ⟨k, v⟩ := p
    simp only [List.map_cons, List.nodup_cons] at hnd
    obtain ⟨hk, hnd'⟩ := hnd
    simp only [List.foldl_cons]
    have hdisj' : ∀ r ∈ ps, ∀ q ∈ treeInsert k v s, q.1 ≠ r.1 := by
      intro r hr q hq
      rcases mem_treeInsert hq with h' | h'
      · subst h'
        intro he
        apply hk
        rw [show k = r.1 from he]
        exact List.mem_map_of_mem Prod.fst hr
      · exact hdisj r (List.mem_cons_of_mem _ hr) q h'
    have step : List.Perm (treeInsert k v s) ((k, v) :: s) :=
      treeInsert_perm k v s (fun q hq => hdisj (k, v) (List.mem_cons_self _ _) q hq)
    have h3 : List.Perm (ps.foldl (fun acc p => treeInsert p.1 p.2 acc) (treeInsert k v s))
        ((k, v) :: (ps ++ s)) :=
      (ih (treeInsert k v s) hnd' hdisj').trans
        ((List.Perm.append_left ps step).trans List.perm_middle)
    simpa using h3

theorem dbInsertAll_eq (pairs : List (ByteSeq × ByteSeq)) (d : OpenDb) :
    dbInsertAll pairs d =
      ⟨{ d.mem with
          defaultTree := pairs.foldl (fun acc p => treeInsert p.1 p.2 acc) d.mem.defaultTree },
        d.disk⟩ := by
  induction pairs generalizing d with
  | nil => simp [dbInsertAll]
  | cons p ps ih =>
    obtain ⟨k, v⟩ := p
    simp only [dbInsertAll, List.foldl_cons] at ih ⊢
    rw [ih]
    rfl

theorem lookupTree_eq_none_of_not_mem (n : ByteSeq)
    (l : List (ByteSeq × TreeState)) (h : ∀ q ∈ l, q.1 ≠ n) :
    lookupTree n l = none := by
  induction l with
  | nil => rfl
  | cons q rest ih =>
    obtain ⟨nq, tq⟩ := q
    have : ¬ (nq = n) := h (nq, tq) (List.mem_cons_self _ _)
    simp only [lookupTree, if_neg this]
    exact ih (fun r hr => h r (List.mem_cons_of_mem _ hr))

theorem lookupTree_removeTreeEntry_self (name : ByteSeq)
    (l : List (ByteSeq × TreeState)) (hnd : (l.map Prod.fst).Nodup) :
    lookupTree name (removeTreeEntry name l) = none := by
  induction l with
  | nil => rfl
  | cons p rest ih =>
    obtain ⟨n, t⟩ := p
    simp only [List.map_cons, List.nodup_cons] at hnd
    obtain ⟨hn, hnd'⟩ := hnd
    simp only [removeTreeEntry]
    by_cases h0 : n = name
    · subst h0
      simp only [if_pos rfl]
      refine lookupTree_eq_none_of_not_mem _ _ ?_
      intro q hq he
      exact hn (he ▸ List.mem_map_of_mem Prod.fst hq)
    · simp only [if_neg h0, lookupTree, if_neg h0]
      exact ih hnd'

theorem lookupTree_removeTreeEntry_other (name n : ByteSeq)
    (l : List (ByteSeq × TreeState)) (hne : n ≠ name) :
    lookupTree n (removeTreeEntry name l) = lookupTree n l := by
  induction l with
  | nil => rfl
  | cons p rest ih =>
    obtain ⟨n0, t0⟩ := p
    simp only [removeTreeEntry, lookupTree]
    by_cases h0 : n0 = name
    · subst h0
      have : ¬ (n0 = n) := fun he => hne he.symm
      simp [lookupTree, this]
    · simp only [if_neg h0, lookupTree]
      by_cases h1 : n0 = n
      · simp [h1]
      · simp [h1, ih]

theorem validTree_perm_eq (s1 s2 : TreeState) (h1 : validTree s1)
    (h2 : validTree s2) (h : List.Perm s1 s2) : s1 = s2 := by
  haveI : IsAntisymm (ByteSeq × ByteSeq) entryLt := by
    constructor
    intro a b hab hba
    have hf : lexLt b.1 a.1 = false := lexLt_asymm hab
    have hba' : lexLt b.1 a.1 = true := hba
    rw [hf] at hba'
    exact absurd hba' Bool.false_ne_true
  exact List.eq_of_perm_of_sorted h h1 h2

/-- Claim C1: for every tree state, key, expected value and proposed value,
`compare_and_swamp` succeeds (returns no conflict) if and only if the key's
current value equals the expected one (absence included); on success the key
is bound to the proposed value (deleted when the proposed value is absent)
and every other key is untouched; on mismatch it returns the conflict
descriptor whose `current` field is the actual current value and whose
`proposed` field is the proposed value, and the tree is unchanged. -/
theorem cas_correct (s : TreeState) (k : ByteSeq) (old new : Option ByteSeq)
    (hs : validTree s) :
    ((SledTree.compare_and_swamp s k old new).1 = none ↔ treeGet k s = old)
    ∧ (treeGet k s = old →
        treeGet k (SledTree.compare_and_swamp s k old new).2 = new
        ∧ ∀ k', k' ≠ k →
            treeGet k' (SledTree.compare_and_swamp s k old new).2 = treeGet k' s)
    ∧ (treeGet k s ≠ old →
        (SledTree.compare_and_swamp s k old new).1
          = some (CompareAndSwapError.mk (treeGet k s) new)
        ∧ (SledTree.compare_and_swamp s k old new).2 = s) := by
  simp only [SledTree.compare_and_swamp, treeCas]
  by_cases h : treeGet k s = old
  · simp only [if_pos h]
    refine ⟨?_, ?_, ?_⟩
    · simp [h]
    · intro _
      constructor
      · cases new with
        | some v => simpa using treeGet_insert_self k v s
        | none => simpa using treeGet_remove_self k s hs
      · intro k' hk'
        cases new with
        | some v => simpa using treeGet_insert_other k v k' s hk'
        | none => simpa using treeGet_remove_other k k' s hk'
    · intro hcontra
      exact absurd h hcontra
  · simp only [if_neg h]
    refine ⟨?_, ?_, ?_⟩
    · simp [h]
    · intro hcontra
      exact absurd hcontra h
    · intro _
      exact ⟨by simp, by simp⟩

/-- Witness for C1 at a concrete input: the empty tree, key `[0]`, expecting
absence and proposing value `[1]`. -/
theorem cas_correct_witness :
    validTree ([] : TreeState)
    ∧ ((SledTree.compare_and_swamp [] [0] none (some [1])).1 = none
        ↔ treeGet [0] ([] : TreeState) = none) :=
  ⟨by decide, (cas_correct [] [0] none (some [1]) (by decide)).1⟩

/-- Claim C2: inserting N key/value pairs into a fresh database, flushing,
closing and reopening the same storage location yields a `scan_all` equal to
the scan before the restart, and that scan is exactly the N inserted pairs
(up to the ascending key order in which a scan yields them). -/
theorem roundtrip_durability (pairs : List (ByteSeq × ByteSeq)) (start : DbState)
    (hnd : (pairs.map Prod.fst).Nodup) (hstart : start.defaultTree = []) :
    SledDb.all (openDb (closeDb (flushDb (dbInsertAll pairs (openDb start))))).mem
      = SledDb.all (dbInsertAll pairs (openDb start)).mem
    ∧ List.Perm
        (SledDb.all (openDb (closeDb (flushDb (dbInsertAll pairs (openDb start))))).mem)
        pairs := by
  constructor
  · rfl
  · have hperm := foldl_insert_perm pairs [] hnd
      (fun p _ q hq => absurd hq (List.not_mem_nil q))
    rw [List.append_nil] at hperm
    have hval : SledDb.all (openDb (closeDb (flushDb (dbInsertAll pairs (openDb start))))).mem
        = pairs.foldl (fun acc p => treeInsert p.1 p.2 acc) [] := by
      rw [dbInsertAll_eq]
      simp [SledDb.all, scanAll, openDb, closeDb, flushDb, hstart]
    rw [hval]
    exact hperm

/-- Witness for C2 at a concrete input: two pairs inserted into a fresh
database at an empty location. -/
theorem roundtrip_durability_witness :
    SledDb.all (openDb (closeDb (flushDb (dbInsertAll [([1], [10]), ([0], [20])]
        (openDb (DbState.mk [] [])))))).mem
      = SledDb.all (dbInsertAll [([1], [10]), ([0], [20])] (openDb (DbState.mk [] []))).mem
    ∧ List.Perm
        (SledDb.all (openDb (closeDb (flushDb (dbInsertAll [([1], [10]), ([0], [20])]
            (openDb (DbState.mk [] [])))))).mem)
        [([1], [10]), ([0], [20])] :=
  roundtrip_durability [([1], [10]), ([0], [20])] (DbState.mk [] []) (by decide) rfl

/-- Claim C3: the full scan of a tree is a finite list of (key, value) pairs
in strictly ascending lexicographic order over raw key bytes (so each key
occurs at most once); the binding materialises it eagerly as a list, so
finiteness is inherent in the result type. -/
theorem scanAll_sorted (s : TreeState) (hs : validTree s) :
    List.Pairwise (fun p q : ByteSeq × ByteSeq => lexLt p.1 q.1 = true)
      (SledTree.all s) :=
  hs

/-- Witness for C3 at a concrete input: a two-entry tree. -/
theorem scanAll_sorted_witness :
    validTree [([0], [1]), ([1], [2])]
    ∧ List.Pairwise (fun p q : ByteSeq × ByteSeq => lexLt p.1 q.1 = true)
        (SledTree.all [([0], [1]), ([1], [2])]) :=
  ⟨by decide, scanAll_sorted [([0], [1]), ([1], [2])] (by decide)⟩

/-- Claim C4: removing an absent key returns absence, leaves the tree (and
hence `len()`) unchanged, and is not an error (the modelled operation is
total); removing a present key returns its previous value. -/
theorem remove_correct (s : TreeState) (k : ByteSeq) :
    (treeGet k s = none →
      (SledTree.remove s k).1 = none
      ∧ (SledTree.remove s k).2 = s
      ∧ treeLen (SledTree.remove s k).2 = treeLen s)
    ∧ ∀ v, treeGet k s = some v → (SledTree.remove s k).1 = some v := by
  constructor
  · intro h
    refine ⟨h, treeRemove_noop k s h, ?_⟩
    show treeLen (treeRemove k s) = treeLen s
    rw [treeRemove_noop k s h]
  · intro v h
    exact h

/-- Witness for C4 at a concrete input: removing key `[0]` from the empty
tree. -/
theorem remove_correct_witness :
    treeGet [0] ([] : TreeState) = none
    ∧ ((SledTree.remove [] [0]).1 = none
        ∧ (SledTree.remove [] [0]).2 = []
        ∧ treeLen (SledTree.remove [] [0]).2 = treeLen []) :=
  ⟨rfl, (remove_correct [] [0]).1 rfl⟩

/-- Claim C5: two trees reaching the same final content (the same collection
of key/value pairs) through any two operation sequences have identical
checksums — the checksum is a function of content only. -/
theorem checksum_deterministic (ops1 ops2 : List TreeOp)
    (h : List.Perm (SledTree.all (runOps ops1)) (SledTree.all (runOps ops2))) :
    checksum (runOps ops1) = checksum (runOps ops2) := by
  have he := validTree_perm_eq (runOps ops1) (runOps ops2)
    (runOps_valid ops1) (runOps_valid ops2) h
  rw [he]

/-- Witness for C5 at a concrete input: inserting A then B versus inserting
B then A. -/
theorem checksum_deterministic_witness :
    List.Perm (SledTree.all (runOps [TreeOp.ins [0] [5], TreeOp.ins [1] [6]]))
      (SledTree.all (runOps [TreeOp.ins [1] [6], TreeOp.ins [0] [5]]))
    ∧ checksum (runOps [TreeOp.ins [0] [5], TreeOp.ins [1] [6]])
      = checksum (runOps [TreeOp.ins [1] [6], TreeOp.ins [0] [5]]) :=
  ⟨by decide,
    checksum_deterministic [TreeOp.ins [0] [5], TreeOp.ins [1] [6]]
      [TreeOp.ins [1] [6], TreeOp.ins [0] [5]] (by decide)⟩

/-- Claim C6: `drop_tree(name)` returns whether a tree of that name existed
and was removed (the dropped name no longer resolves, all other names are
untouched), except that the reserved default name is rejected with an
invalid-operation error and nothing is removed. -/
theorem drop_tree_correct (d : DbState) (name : ByteSeq)
    (hreg : (d.trees.map Prod.fst).Nodup) :
    (name = defaultTreeName →
      ∃ m, SledDb.drop_tree d name = .error (SledError.invalidOperationError m))
    ∧ (name ≠ defaultTreeName →
        SledDb.drop_tree d name
          = .ok ((lookupTree name d.trees).isSome,
              if (lookupTree name d.trees).isSome
              then { d with trees := removeTreeEntry name d.trees } else d)
        ∧ lookupTree name (removeTreeEntry name d.trees) = none
        ∧ ∀ n, n ≠ name →
            lookupTree n (removeTreeEntry name d.trees) = lookupTree n d.trees) := by
  constructor
  · intro h
    exact ⟨"cannot remove the core structures", by simp [SledDb.drop_tree, dropTree, h]⟩
  · intro h
    refine ⟨?_, lookupTree_removeTreeEntry_self name d.trees hreg,
      fun n hn => lookupTree_removeTreeEntry_other name n d.trees hn⟩
    simp only [SledDb.drop_tree, dropTree, if_neg h]
    cases hl : lookupTree name d.trees with
    | some t => simp
    | none => simp

/-- Witness for C6 at a concrete input: dropping the reserved default name
from a database with an empty registry. -/
theorem drop_tree_correct_witness :
    ∃ m, SledDb.drop_tree (DbState.mk [] []) []
      = .error (SledError.invalidOperationError m) :=
  (drop_tree_correct (DbState.mk [] []) [] (by decide)).1 rfl

/-- Claim C7: for every database state and every tree state, `len()` equals
the number of pairs yielded by the full scan, and `is_empty()` holds exactly
when the full scan yields nothing; since this holds for every state, it
holds after every sequence of operations. -/
theorem len_is_empty_agree (d : DbState) (s : TreeState) :
    SledDb.len d = (SledDb.all d).length
    ∧ (SledDb.is_empty d = true ↔ SledDb.all d = [])
    ∧ SledTree.lenDunder s = (SledTree.all s).length
    ∧ (SledTree.is_empty s = true ↔ SledTree.all s = []) := by
  refine ⟨rfl, ?_, rfl, ?_⟩ <;>
    simp [SledDb.is_empty, SledDb.all, SledTree.is_empty, SledTree.all,
      treeIsEmpty, scanAll, List.isEmpty_iff]

/-- Claim C8: `contains` answers exactly whether `get` returns a present
value, on the database's default tree and on any tree. -/
theorem contains_iff_get (d : DbState) (s : TreeState) (k : ByteSeq) :
    SledDb.contains_key d k = (SledDb.get d k).isSome
    ∧ SledTree.containsDunder s k = (SledTree.get s k).isSome :=
  ⟨treeContainsKey_eq_isSome k d.defaultTree, treeContainsKey_eq_isSome k s⟩

/-- Claim C9: the Python mapping-protocol methods of both `SledDb` and
`SledTree` coincide with the named operations: `__getitem__` with `get`,
`__setitem__` with `insert` (discarding the previous value), `__delitem__`
with `remove` (discarding the previous value), `__len__` with `len`, and
`__contains__` with `contains_key`. -/
theorem mapping_protocol_coincides (d : DbState) (s : TreeState) (k v : ByteSeq) :
    SledDb.getitem d k = SledDb.get d k
    ∧ SledDb.setitem d k v = (SledDb.insert d k v).2
    ∧ SledDb.delitem d k = (SledDb.remove d k).2
    ∧ SledDb.lenDunder d = SledDb.len d
    ∧ SledDb.containsDunder d k = SledDb.contains_key d k
    ∧ SledTree.getitem s k = SledTree.get s k
    ∧ SledTree.setitem s k v = (SledTree.insert s k v).2
    ∧ SledTree.delitem s k = (SledTree.remove s k).2
    ∧ SledTree.lenDunder s = treeLen s
    ∧ SledTree.containsDunder s k = treeContainsKey k s :=
  ⟨rfl, rfl, rfl, rfl, rfl, rfl, rfl, rfl, rfl, rfl⟩

/-- Claim C10: every failure the binding surfaces is a `ValueError` whose
message is the engine error's display string — for `SledDb::new` prefixed
with "Failed to open db: " — and successes pass through unchanged; every
fallible method of `SledDb` and `SledTree` in src/lib.rs routes its engine
outcome through `convert_to_pyresult` (or, for `new`, the prefixed variant),
so no other error kind is ever raised. -/
theorem binding_errors_single_kind (α : Type) (r : Except SledError α)
    (openResult : Except SledError DbState) :
    (∀ p, convert_to_pyresult r = .error p →
        p.kind = PyErrKind.valueError ∧ ∃ e, r = .error e ∧ p.msg = displayErr e)
    ∧ (∀ a, convert_to_pyresult r = .ok a → r = .ok a)
    ∧ (∀ p, SledDb.new openResult = .error p →
        p.kind = PyErrKind.valueError
        ∧ ∃ e, openResult = .error e
            ∧ p.msg = "Failed to open db: " ++ displayErr e) := by
  refine ⟨?_, ?_, ?_⟩
  · intro p hp
    cases r with
    | ok a => exact Except.noConfusion hp
    | error e =>
      have hp' : (PyErr.mk PyErrKind.valueError (displayErr e)) = p := by
        injection hp
      subst hp'
      exact ⟨rfl, e, rfl, rfl⟩
  · intro a ha
    cases r with
    | ok b => simpa [convert_to_pyresult, Except.mapError] using ha
    | error e => exact Except.noConfusion ha
  · intro p hp
    cases openResult with
    | ok db => exact Except.noConfusion hp
    | error e =>
      have hp' : (PyErr.mk PyErrKind.valueError ("Failed to open db: " ++ displayErr e)) = p := by
        injection hp
      subst hp'
      exact ⟨rfl, e, rfl, rfl⟩

/-- Witness for C10 at a concrete input: an engine storage failure with
message "boom". -/
theorem binding_errors_single_kind_witness :
    (PyErr.mk PyErrKind.valueError "boom").kind = PyErrKind.valueError
    ∧ ∃ e, (Except.error (SledError.ioError "boom") : Except SledError Nat)
        = Except.error e
      ∧ (PyErr.mk PyErrKind.valueError "boom").msg = displayErr e :=
  (binding_errors_single_kind Nat (Except.error (SledError.ioError "boom"))
    (Except.ok (DbState.mk [] []))).1 (PyErr.mk PyErrKind.valueError "boom") rfl
